import Mathlib

/-!
Shallow embedding of `src/remover.py` (a CSS "unused style" remover).
Text is modelled as `List Char`; Python string slices `s[a:b]` become
`pySlice`; the stateful parse loop becomes explicit state passing with a
stack of open blocks (Python attaches a child to its parent at creation
time and then mutates it in place; the pure embedding attaches the
finished block when it closes, and `collapse` attaches the still-open
frames at end of input, which yields the very same trees).  Exceptions
become `Except` errors.
-/

namespace Remover

/-! ### Python-style helpers -/

/-- Python slice `s[a:b]` (for `0 ≤ a ≤ b`; clamped at the ends). -/
def pySlice (s : List Char) (a b : Nat) : List Char :=
  (s.take b).drop a

/-- Models `find(input_str, search, reverse=True)` from `src/remover.py`
(lines 115-120): the index of the last occurrence of `c`, or `none`. -/
def findLast? : List Char → Char → Option Nat
  | [], _ => none
  | d :: t, c =>
    match findLast? t c with
    | some k => some (k + 1)
    | none => if d = c then some 0 else none

/-! ### Tokenizer (`find_tokens`, lines 123-129)

The first regex `[\W\s]([\w_-]+[\w\d_-]*)[\W\s]` requires a non-word
character before and after a run of word-or-hyphen characters; since
`\s ⊆ \W` and `\d, _ ⊆ \w` this is: one non-word char, a nonempty run
over `[\w-]`, one non-word char.  `re.finditer` yields leftmost,
non-overlapping matches; greedy backtracking means that when the run
reaches the end of the string the trailing delimiter is taken at the
last hyphen inside the run (a hyphen is a non-word character).  The
second regex `([\w_-]+[\w\d_-])` keeps maximal `[\w-]` runs of length
at least two.  Recursion is fuelled (each step consumes at least one
character, so fuel = length suffices). -/

/-- Python `\w` over the ASCII inputs at hand: letters, digits, underscore. -/
def isWordChar (c : Char) : Bool := c.isAlphanum || c = '_'

/-- The character class `[\w_-]` = `[\w\d_-]`: word characters plus hyphen. -/
def isGroupChar (c : Char) : Bool := isWordChar c || c = '-'

/-- Greatest `k < n` with `p k`, or `none`. -/
def lastPosBelow (p : Nat → Bool) : Nat → Option Nat
  | 0 => none
  | n + 1 => if p n then some n else lastPosBelow p n

/-- Greatest position `k ≥ 1` of a hyphen in `run` (the candidate trailing
delimiters available by backtracking when the run touches end of input). -/
def lastInnerHyphen? (run : List Char) : Option Nat :=
  lastPosBelow (fun k => 1 ≤ k && run.get? k == some '-') run.length

/-- One leftmost-match scan of regex `[\W\s]([\w_-]+[\w\d_-]*)[\W\s]`,
returning the capture groups in order (fuelled recursion). -/
def scanSpansF : Nat → List Char → List (List Char)
  | 0, _ => []
  | _ + 1, [] => []
  | fuel + 1, c :: cs =>
    if isWordChar c then scanSpansF fuel cs
    else
      let run := cs.takeWhile isGroupChar
      let rest := cs.dropWhile isGroupChar
      match rest with
      | _ :: rest' =>
        if 1 ≤ run.length then run :: scanSpansF fuel rest'
        else scanSpansF fuel cs
      | [] =>
        match lastInnerHyphen? run with
        | some k => run.take k :: scanSpansF fuel (run.drop (k + 1))
        | none => scanSpansF fuel cs

def scanSpans (s : List Char) : List (List Char) :=
  scanSpansF s.length s

/-- One scan of regex `([\w_-]+[\w\d_-])`: maximal `[\w-]` runs of length
at least two (fuelled recursion). -/
def scanTokensF : Nat → List Char → List (List Char)
  | 0, _ => []
  | _ + 1, [] => []
  | fuel + 1, c :: cs =>
    if isGroupChar c then
      let run := c :: cs.takeWhile isGroupChar
      let rest := cs.dropWhile isGroupChar
      if 2 ≤ run.length then run :: scanTokensF fuel rest
      else scanTokensF fuel rest
    else scanTokensF fuel cs

def scanTokens (s : List Char) : List (List Char) :=
  scanTokensF s.length s

/-- `find_tokens` (lines 123-129): for each coarse span, the tokens found
inside it, concatenated in order. -/
def find_tokens (s : List Char) : List (List Char) :=
  (scanSpans s).flatMap scanTokens

/-! ### The block tree (`CssBlock`, lines 23-42) -/

/-- A parsed block: `rule` is the prelude, `content` the flat body text,
`start`/`stop` the source offsets (Python attributes `start`/`end`),
`children` the nested blocks in document order.  The Python `parent`
back-pointer is implicit in the tree structure. -/
inductive CssBlock : Type where
  | mk (rule : List Char) (content : List Char) (start : Nat) (stop : Nat)
      (children : List CssBlock)

def CssBlock.rule : CssBlock → List Char
  | .mk r _ _ _ _ => r

def CssBlock.content : CssBlock → List Char
  | .mk _ c _ _ _ => c

def CssBlock.start : CssBlock → Nat
  | .mk _ _ s _ _ => s

def CssBlock.stop : CssBlock → Nat
  | .mk _ _ _ e _ => e

def CssBlock.children : CssBlock → List CssBlock
  | .mk _ _ _ _ ch => ch

/-! ### Block parser (`parse`, lines 132-170) -/

/-- An open (not yet closed) block under construction. -/
structure Frame : Type where
  rule : List Char
  content : List Char
  start : Nat
  stop : Nat
  children : List CssBlock

/-- Parser state: `prevIndex` (start of the next unclassified span), the
finished root blocks, and the stack of open frames, innermost first. -/
structure PState : Type where
  prevIndex : Nat
  roots : List CssBlock
  stack : List Frame

/-- The prelude boundary computed on `{` (lines 142-151): `prev_end_index`
starts at `prev_index`, is pushed past the last newline of the span, then
past the last semicolon. -/
def boundary (text : List Char) (prevIndex i : Nat) : Nat :=
  let prev := pySlice text prevIndex i
  let semi := findLast? prev ';'
  let nl := findLast? prev '\n'
  let b1 :=
    match nl with
    | some k => max prevIndex (prevIndex + k + 1)
    | none => prevIndex
  match semi with
  | some k => max b1 (prevIndex + k + 1)
  | none => b1

/-- Handling of `{` at position `i` (lines 140-162): split the span at the
boundary, append the leftover to the open block (or drop it at top level),
open a new block whose prelude is the rest of the span. -/
def openBrace (text : List Char) (st : PState) (i : Nat) : PState :=
  let bnd := boundary text st.prevIndex i
  let parentContent := pySlice text st.prevIndex bnd
  let rule := pySlice text bnd i
  match st.stack with
  | [] =>
    PState.mk (i + 1) st.roots [Frame.mk rule [] bnd i []]
  | f :: fs =>
    PState.mk (i + 1) st.roots
      (Frame.mk rule [] bnd i [] ::
        Frame.mk f.rule (f.content ++ parentContent) f.start i f.children :: fs)

/-- Handling of `}` at position `i` (lines 163-166): append the span to the
open block, set its end past the brace, ascend.  With no open block the
Python code dereferences `None` and dies; the embedding returns the offset
as the error. -/
def closeBrace (text : List Char) (st : PState) (i : Nat) :
    Except Nat PState :=
  match st.stack with
  | [] => .error i
  | f :: fs =>
    let b := CssBlock.mk f.rule (f.content ++ pySlice text st.prevIndex i)
      f.start (i + 1) f.children
    match fs with
    | [] => .ok (PState.mk (i + 1) (st.roots ++ [b]) [])
    | g :: gs =>
      .ok (PState.mk (i + 1) st.roots
        (Frame.mk g.rule g.content g.start g.stop (g.children ++ [b]) :: gs))

/-- The scan over `re.finditer("[{}]", input_str)`: every character is
visited in order; only braces change the state. -/
def parseLoop (s : List Char) : PState → Nat → List Char → Except Nat PState
  | st, _, [] => .ok st
  | st, i, c :: cs =>
    if c = '\x7b' then parseLoop s (openBrace s st i) (i + 1) cs
    else if c = '\x7d' then
      match closeBrace s st i with
      | .error e => .error e
      | .ok st' => parseLoop s st' (i + 1) cs
    else parseLoop s st (i + 1) cs

def Frame.toBlock (f : Frame) : CssBlock :=
  CssBlock.mk f.rule f.content f.start f.stop f.children

/-- Blocks still open at end of input: in Python they were attached to
their parents (and the outermost one to `blocks`) already at creation;
the pure embedding attaches them here, innermost first. -/
def collapseGo : CssBlock → List Frame → List CssBlock → List CssBlock
  | b, [], roots => roots ++ [b]
  | b, g :: gs, roots =>
    collapseGo
      (CssBlock.mk g.rule g.content g.start g.stop (g.children ++ [b])) gs roots

def collapse : List Frame → List CssBlock → List CssBlock
  | [], roots => roots
  | f :: fs, roots => collapseGo f.toBlock fs roots

/-- `parse` (lines 132-170): the list of root blocks, or the offset of a
closing brace that found no open block. -/
def parse (s : List Char) : Except Nat (List CssBlock) :=
  match parseLoop s (PState.mk 0 [] []) 0 s with
  | .error e => .error e
  | .ok st => .ok (collapse st.stack st.roots)

/-! ### Selector normalizer (`CssBlock.get_normalized_rule`, lines 35-54)

`get_normalized_rule` walks the `parent` chain, so the embedding takes the
block's rule together with the list of its ancestors' rules, nearest
first.  `self.rule[0]` on an empty rule raises `IndexError` in Python;
`self.rule.strip(' ')` strips space characters only. -/

inductive NormErr : Type where
  | emptyRule
  | invalidNesting
deriving DecidableEq

/-- `is_selector_rule` (lines 35-36): `self.rule[0] != '@'`; indexing an
empty rule is an error. -/
def is_selector_rule : List Char → Except NormErr Bool
  | [] => .error .emptyRule
  | c :: _ => .ok (c ≠ '@')

/-- Python `str.strip(' ')`: remove leading and trailing spaces (U+0020
only, not general whitespace). -/
def stripSpaces (l : List Char) : List Char :=
  ((l.dropWhile (· = ' ')).reverse.dropWhile (· = ' ')).reverse

/-- Python `rule.replace("&", parent_rule)`: the search string is the
single character `&`, so every `&` is replaced. -/
def replaceAmp (l : List Char) (r : List Char) : List Char :=
  l.flatMap fun c => if c = '&' then r else [c]

/-- `get_normalized_rule` (lines 44-54) on a rule with its ancestor rules
(nearest first). -/
def get_normalized_rule : List Char → List (List Char) →
    Except NormErr (List Char)
  | rule, parents =>
    match is_selector_rule rule with
    | .error e => .error e
    | .ok false => .ok (stripSpaces rule)
    | .ok true =>
      if '&' ∈ rule then
        match parents with
        | [] => .error .invalidNesting
        | p :: ps =>
          match is_selector_rule p with
          | .error e => .error e
          | .ok false => .error .invalidNesting
          | .ok true =>
            match get_normalized_rule p ps with
            | .error e => .error e
            | .ok pr => .ok (stripSpaces (replaceAmp rule pr))
      else .ok (stripSpaces rule)

/-! ### Token index builder (`main`, lines 174-187) -/

/-- `max_index_size = 4 * (1024 ** 3)` (line 20). -/
def max_index_size : Nat := 4 * 1024 ^ 3

/-- The index set plus the running total of scanned token bytes. -/
structure IndexState : Type where
  index : Finset (List Char)
  size : Nat

/-- The inner loop of `main` (lines 180-185): for each token, the running
total grows by the token's length whether or not the token is new; if that
would push it strictly over the ceiling, fail there (the embedding's error
carries the state at the moment of the raise, in which the failing token
was never inserted). -/
def buildIndex (maxSize : Nat) : IndexState → List (List Char) →
    Except IndexState IndexState
  | st, [] => .ok st
  | st, t :: ts =>
    let next := st.size + t.length
    if maxSize < next then .error st
    else buildIndex maxSize (IndexState.mk (insert t st.index) next) ts

/-! ### Orchestrator (`main`, lines 189-193)

After the index is built, `main` loops over the stylesheet files with a
progress bar — and executes `break` after parsing the first one. -/

/-- The stylesheet phase of `main`, on the list of file contents. -/
def mainStylePhase (inputTexts : List (List Char)) :
    Except Nat (List (List CssBlock)) :=
  match inputTexts with
  | [] => .ok []
  | t :: _ =>
    match parse t with
    | .error e => .error e
    | .ok bs => .ok [bs]

/-! ### Spec-side definitions

These follow the specification's words (not the code) and exist to be
compared with the embedded code. -/

/-- Spec reading of "strip surrounding whitespace": remove leading and
trailing whitespace characters (of any kind, not only spaces). -/
def specTrimWhitespace (l : List Char) : List Char :=
  ((l.dropWhile Char.isWhitespace).reverse.dropWhile Char.isWhitespace).reverse

/-- Spec reading of "the position of the last `c` in the span since the
previous structural character": the greatest absolute position `j` with
`prevIndex ≤ j < i` holding the character `c`, if any. -/
def specLastStop (text : List Char) (prev i : Nat) (c : Char) : Option Nat :=
  lastPosBelow (fun j => decide (prev ≤ j) && (text[j]? == some c)) i

/-- Spec reading of the prelude boundary: "the later of (last `;`
position + 1) and (last newline position + 1); if neither exists, the
boundary is `prev_index`". -/
def specBoundary (text : List Char) (prev i : Nat) : Nat :=
  max
    (match specLastStop text prev i ';' with
     | some m => m + 1
     | none => prev)
    (match specLastStop text prev i '\n' with
     | some m => m + 1
     | none => prev)

/-- One step of top-level brace-depth tracking: `none` once a closing
brace has been seen at depth zero (the spec's "no block is open"). -/
def depthStep : Option Nat → Char → Option Nat
  | none, _ => none
  | some d, c =>
    if c = '\x7b' then some (d + 1)
    else if c = '\x7d' then
      match d with
      | 0 => none
      | d' + 1 => some d'
    else some d

/-- Spec reading of "braces balanced": depth never dips below zero and
returns to zero at the end. -/
def balanced (s : List Char) : Bool :=
  s.foldl depthStep (some 0) == some 0

/-- Total length of a token sequence (the "running byte total"). -/
def sizesOf (tokens : List (List Char)) : Nat :=
  (tokens.map List.length).sum

/-- Inserting a token sequence into a set, in order. -/
def insertAll (tokens : List (List Char)) (s : Finset (List Char)) :
    Finset (List Char) :=
  tokens.foldl (fun acc t => insert t acc) s

/-! ### Round-trip predicates (C1)

`Rebuilds b t` says the source span `t` is exactly the block's prelude,
an opening brace, the block's body pieces interleaved in document order
with its children's spans, and a closing brace; `Inner ct ch t` is the
interleaving of a body `ct` (split into pieces) with the child spans.
`ForestP bs t` splits `t` into alternating brace-free stray gaps and
root-block spans. -/

/-- The text contains no structural braces. -/
def NoBrace (l : List Char) : Prop :=
  ∀ c ∈ l, c ≠ '\x7b' ∧ c ≠ '\x7d'

mutual
inductive Rebuilds : CssBlock → List Char → Prop where
  | mk : ∀ (r ct : List Char) (a b : Nat) (ch : List CssBlock)
      (tin : List Char),
      Inner ct ch tin →
      Rebuilds (CssBlock.mk r ct a b ch) (r ++ '\x7b' :: (tin ++ ['\x7d']))

inductive Inner : List Char → List CssBlock → List Char → Prop where
  | last : ∀ p : List Char, Inner p [] p
  | cons : ∀ (p rest : List Char) (c : CssBlock) (cs : List CssBlock)
      (tc tin : List Char),
      Rebuilds c tc → Inner rest cs tin →
      Inner (p ++ rest) (c :: cs) (p ++ (tc ++ tin))
end

/-- Decomposition of a text into alternating top-level stray gaps
(brace-free) and root-block spans, in document order. -/
inductive ForestP : List CssBlock → List Char → Prop where
  | nil : ForestP [] []
  | cons : ∀ (g tb t : List Char) (b : CssBlock) (bs : List CssBlock),
      NoBrace g → Rebuilds b tb → ForestP bs t →
      ForestP (b :: bs) (g ++ (tb ++ t))

/-- The text contributed so far by the open frames, innermost frame
last: the outermost open frame is preceded by its top-level stray gap,
each frame contributes its prelude, its `{`, and its partial inner
text. -/
inductive StackP : List Frame → List Char → Prop where
  | nil : StackP [] []
  | one : ∀ (g tin : List Char) (f : Frame),
      NoBrace g → Inner f.content f.children tin →
      StackP [f] (g ++ (f.rule ++ '\x7b' :: tin))
  | cons : ∀ (t2 tin : List Char) (f f2 : Frame) (fs : List Frame),
      StackP (f2 :: fs) t2 → Inner f.content f.children tin →
      StackP (f :: f2 :: fs) (t2 ++ (f.rule ++ '\x7b' :: tin))

/-! ### Verification predicates for the parse-tree invariants (C9) -/

/-- Well-formed block: its span is ordered, its children's start offsets
strictly increase in document order, and the children are well-formed. -/
inductive WF : CssBlock → Prop where
  | mk : ∀ (r ct : List Char) (a b : Nat) (ch : List CssBlock),
      a ≤ b →
      ch.Pairwise (fun x y => x.start < y.start) →
      (∀ c ∈ ch, WF c) →
      WF (CssBlock.mk r ct a b ch)

/-- `Descend b r`: `b` is `r` or a block nested somewhere below `r`. -/
inductive Descend : CssBlock → CssBlock → Prop where
  | refl : ∀ b, Descend b b
  | child : ∀ b c d, c ∈ b.children → Descend d c → Descend d b

/-- Invariant of an open frame, relative to a position bound (the scan's
`prevIndex` for the innermost frame, the inner neighbour's start
otherwise): its span so far is ordered and sits before the bound, and its
finished children are well-formed, strictly ordered, and closed before
the bound. -/
def FrOk (bound : Nat) (f : Frame) : Prop :=
  f.start ≤ f.stop ∧ f.start ≤ bound ∧
  f.children.Pairwise (fun x y => x.start < y.start) ∧
  ∀ c ∈ f.children, WF c ∧ c.start < c.stop ∧ c.stop ≤ bound

/-- Invariant of the stack of open frames, innermost first. -/
def StackInvC : Nat → List Frame → Prop
  | _, [] => True
  | bound, f :: fs => FrOk bound f ∧ StackInvC f.start fs

/-- What end-of-input collapse needs of the remaining stack: each frame
is internally well-formed and the children of each outer frame start
strictly before its inner neighbour's start (which is exactly where the
collapsed inner block is appended). -/
def CInvC : List Frame → Prop
  | [] => True
  | [f] =>
    f.start ≤ f.stop ∧
    f.children.Pairwise (fun x y => x.start < y.start) ∧
    ∀ c ∈ f.children, WF c
  | f :: g :: gs =>
    (f.start ≤ f.stop ∧
      f.children.Pairwise (fun x y => x.start < y.start) ∧
      ∀ c ∈ f.children, WF c) ∧
    (∀ c ∈ g.children, c.start < f.start) ∧
    CInvC (g :: gs)

/-! ### Claims C8 and C10 -/

/-- C8: parsing `a { b { c }` (one unmatched opening brace) does not
raise; the result is a single root block whose child is fully closed
(body ` c `, end `11`, one past the `}` at offset 10) while the root
remains open: its end stays at `6`, the child's opening brace, never
advanced by any closing brace. -/
theorem claim_C8 :
    parse "a \x7b b \x7b c \x7d".data =
      .ok [CssBlock.mk "a ".data [] 0 6
        [CssBlock.mk " b ".data " c ".data 3 11 []]] := by
  rfl

/-- C10: classifying or normalizing an empty prelude is not total:
`is_selector_rule` fails on the empty rule (Python raises `IndexError`
on `self.rule[0]`), the parser really produces empty preludes (a `{`
right after a `;` or a newline), and normalization of such a block
fails, so normalization is only safe when the prelude is non-empty. -/
theorem claim_C10 :
    is_selector_rule [] = .error .emptyRule ∧
    parse ";\x7b\x7d".data = .ok [CssBlock.mk [] [] 1 3 []] ∧
    parse "\n\x7b\x7d".data = .ok [CssBlock.mk [] [] 1 3 []] ∧
    get_normalized_rule [] [] = .error .emptyRule ∧
    get_normalized_rule [] [".a".data] = .error .emptyRule :=
  ⟨rfl, rfl, rfl, rfl, rfl⟩

/-! ### Claim C7 -/

/-- C7 (failing input): fed two stylesheet texts, the orchestrator's
stylesheet phase parses only the first one — the Python loop executes
`break` after its first iteration — so the result holds one tree, not
one tree per input file. -/
theorem claim_C7_break :
    mainStylePhase ["a\x7bb\x7d".data, "c\x7bd\x7d".data] =
      .ok [[CssBlock.mk "a".data "b".data 0 4 []]] ∧
    ([[CssBlock.mk "a".data "b".data 0 4 []]] : List (List CssBlock)).length
      = 1 :=
  ⟨rfl, rfl⟩

/-! ### Claim C5 -/

/-- C5 (counterexample): the parser produces a selector-rule block with
prelude `"\t&q "` (tab kept: the boundary only skips past `;` and
newlines); normalizing it under parent `p` yields `"\tpq"` — the code
strips only space characters (`strip(' ')`) — which differs from the
claim's "surrounding whitespace stripped" value `"pq"`. -/
theorem claim_C5_counterexample :
    parse "p\x7bx;\t&q \x7b\x7d\x7d".data =
      .ok [CssBlock.mk "p".data "x;".data 0 11
        [CssBlock.mk "\t&q ".data [] 4 10 []]] ∧
    get_normalized_rule "\t&q ".data ["p".data] = .ok "\tpq".data ∧
    "\tpq".data ≠
      specTrimWhitespace (replaceAmp "\t&q ".data (stripSpaces "p".data)) :=
  ⟨rfl, rfl, by decide⟩

/-- C5 (amended): for a selector-rule block whose prelude contains `&`:
if it is a root or its parent is an at-rule block, normalization fails
with the invalid-nesting error; otherwise, when the parent's own
normalization succeeds, the result is the prelude with every `&`
replaced by the parent's normalized selector and surrounding space
characters (only U+0020) stripped. -/
theorem claim_C5_amended (rule : List Char) (parents : List (List Char))
    (c0 : Char) (hhead : rule.head? = some c0) (hsel : c0 ≠ '@')
    (hamp : '&' ∈ rule) :
    (parents = [] →
      get_normalized_rule rule parents = .error .invalidNesting) ∧
    (∀ p ps, parents = p :: ps → p.head? = some '@' →
      get_normalized_rule rule parents = .error .invalidNesting) ∧
    (∀ p ps pc pr, parents = p :: ps → p.head? = some pc → pc ≠ '@' →
      get_normalized_rule p ps = .ok pr →
      get_normalized_rule rule parents =
        .ok (stripSpaces (replaceAmp rule pr))) := by
  match rule, hhead with
  | c0 :: rs, rfl =>
    refine ⟨?_, ?_, ?_⟩
    · rintro rfl
      simp [get_normalized_rule, is_selector_rule, hsel, hamp]
    · rintro p ps rfl hp
      match p, hp with
      | q :: qs, hp =>
        have hq : q = '@' := by simpa using hp
        subst hq
        simp [get_normalized_rule, is_selector_rule, hsel, hamp]
    · rintro p ps pc pr rfl hp hpc hnorm
      match p, hp with
      | q :: qs, hp =>
        have hq : q = pc := by simpa using hp
        subst hq
        simp [get_normalized_rule, is_selector_rule, hsel, hamp, hpc, hnorm]

/-- C5 (witness): the claim's own example, root `.a` with child
`&:hover`, normalizes to `.a:hover`. -/
theorem claim_C5_witness :
    get_normalized_rule "&:hover".data [".a".data] = .ok ".a:hover".data := by
  have h := (claim_C5_amended "&:hover".data [".a".data] '&' rfl
    (by decide) (by decide)).2.2 ".a".data [] '.' ".a".data rfl rfl
    (by decide) rfl
  exact h

/-! ### Claim C3 -/

/-- C3 (counterexample): tokenizing `.foo-bar:hover, #baz_1` does not
yield `["foo-bar", "baz_1"]` — the first-stage pattern demands a
delimiter character after each span, the text ends right after `baz_1`,
so that token is dropped. -/
theorem claim_C3_counterexample :
    find_tokens ".foo-bar:hover, #baz_1".data ≠
      ["foo-bar".data, "baz_1".data] := by
  decide

/-- Every token produced by the second-stage scan is a run of at least
two identifier characters. -/
theorem scanTokensF_wellformed (fuel : Nat) :
    ∀ (l t : List Char), t ∈ scanTokensF fuel l →
      2 ≤ t.length ∧ ∀ c ∈ t, isGroupChar c = true := by
  induction fuel with
  | zero => intro l t h; simp [scanTokensF] at h
  | succ fuel ih =>
    intro l t h
    match l with
    | [] => simp [scanTokensF] at h
    | c :: cs =>
      rw [scanTokensF] at h
      by_cases hc : isGroupChar c
      · rw [if_pos hc] at h
        by_cases hlen : 2 ≤ (c :: cs.takeWhile isGroupChar).length
        · rw [if_pos hlen, List.mem_cons] at h
          rcases h with rfl | h
          · refine ⟨hlen, ?_⟩
            intro d hd
            rcases List.mem_cons.mp hd with rfl | hd
            · exact hc
            · exact List.mem_takeWhile_imp hd
          · exact ih _ _ h
        · rw [if_neg hlen] at h
          exact ih _ _ h
      · rw [if_neg hc] at h
        exact ih _ _ h

/-- C3 (amended): tokenizing `.foo-bar:hover, #baz_1` yields exactly
`["foo-bar"]` (order and case preserved, punctuation discarded; the
final `baz_1` is lost for want of a trailing delimiter); in general
every emitted token is a run of identifier-class characters (letters,
digits, underscore, hyphen) of length at least two. -/
theorem claim_C3_amended :
    find_tokens ".foo-bar:hover, #baz_1".data = ["foo-bar".data] ∧
    ∀ (s t : List Char), t ∈ find_tokens s →
      2 ≤ t.length ∧ ∀ c ∈ t, isGroupChar c = true := by
  refine ⟨by decide, ?_⟩
  intro s t h
  rw [find_tokens, List.mem_flatMap] at h
  rcases h with ⟨span, _, ht⟩
  exact scanTokensF_wellformed _ _ _ ht

/-- C3 (witness): the surviving token `foo-bar` satisfies the general
shape property. -/
theorem claim_C3_witness :
    2 ≤ "foo-bar".data.length ∧
      ∀ c ∈ "foo-bar".data, isGroupChar c = true :=
  claim_C3_amended.2 ".foo-bar:hover, #baz_1".data "foo-bar".data
    (by decide)

/-! ### Claim C4 -/

/-- If every prefix of the token sequence fits under the ceiling, the
build succeeds; the final running total is the sum of the lengths of all
examined tokens, duplicates included. -/
theorem buildIndex_ok_of (maxSize : Nat) :
    ∀ (tokens : List (List Char)) (st : IndexState),
      (∀ k, k ≤ tokens.length → st.size + sizesOf (tokens.take k) ≤ maxSize) →
      buildIndex maxSize st tokens =
        .ok (IndexState.mk (insertAll tokens st.index)
          (st.size + sizesOf tokens)) := by
  intro tokens
  induction tokens with
  | nil =>
    intro st _
    simp [buildIndex, insertAll, sizesOf]
  | cons t ts ih =>
    intro st h
    have h1 : st.size + t.length ≤ maxSize := by
      have := h 1 (by simp)
      simpa [sizesOf] using this
    rw [buildIndex, if_neg (by omega)]
    have h2 := ih (IndexState.mk (insert t st.index) (st.size + t.length))
      (by
        intro k hk
        have := h (k + 1) (by simpa using Nat.succ_le_succ hk)
        simpa [sizesOf, Nat.add_assoc] using this)
    rw [h2]
    simp [insertAll, sizesOf, Nat.add_assoc]

/-- The build fails exactly at the first token that pushes the running
total strictly over the ceiling; at the moment of failure the set holds
precisely the earlier tokens and the failing token was never inserted. -/
theorem buildIndex_err_of (maxSize : Nat) :
    ∀ (tokens : List (List Char)) (k : Nat) (st : IndexState),
      k < tokens.length →
      (∀ j, j < k → st.size + sizesOf (tokens.take (j + 1)) ≤ maxSize) →
      maxSize < st.size + sizesOf (tokens.take (k + 1)) →
      buildIndex maxSize st tokens =
        .error (IndexState.mk (insertAll (tokens.take k) st.index)
          (st.size + sizesOf (tokens.take k))) := by
  intro tokens
  induction tokens with
  | nil => intro k st hk; simp at hk
  | cons t ts ih =>
    intro k st hk hbelow hover
    match k with
    | 0 =>
      have hov : maxSize < st.size + t.length := by
        simpa [sizesOf] using hover
      rw [buildIndex, if_pos hov]
      simp [insertAll, sizesOf]
    | k + 1 =>
      have h0 : st.size + t.length ≤ maxSize := by
        have := hbelow 0 (Nat.succ_pos _)
        simpa [sizesOf] using this
      rw [buildIndex, if_neg (by omega)]
      have h2 := ih k (IndexState.mk (insert t st.index) (st.size + t.length))
        (by simpa using Nat.lt_of_succ_lt_succ hk)
        (by
          intro j hj
          have := hbelow (j + 1) (Nat.succ_lt_succ hj)
          simpa [sizesOf, Nat.add_assoc] using this)
        (by simpa [sizesOf, Nat.add_assoc] using hover)
      rw [h2]
      simp [insertAll, sizesOf, Nat.add_assoc]

/-- C4: starting from the empty index, (a) if every prefix of the token
sequence fits under the ceiling the build succeeds and the running total
is the sum of every examined token's length — regardless of whether a
token was already in the set — and (b) it fails exactly at the first
token whose length pushes the running total strictly over the ceiling,
with the set holding only the strictly earlier tokens (the failing token
is not added). -/
theorem claim_C4 (tokens : List (List Char)) (maxSize : Nat) :
    ((∀ k, k ≤ tokens.length → sizesOf (tokens.take k) ≤ maxSize) →
      buildIndex maxSize (IndexState.mk ∅ 0) tokens =
        .ok (IndexState.mk (insertAll tokens ∅) (sizesOf tokens))) ∧
    (∀ k, k < tokens.length →
      (∀ j, j < k → sizesOf (tokens.take (j + 1)) ≤ maxSize) →
      maxSize < sizesOf (tokens.take (k + 1)) →
      buildIndex maxSize (IndexState.mk ∅ 0) tokens =
        .error (IndexState.mk (insertAll (tokens.take k) ∅)
          (sizesOf (tokens.take k)))) := by
  constructor
  · intro h
    have := buildIndex_ok_of maxSize tokens (IndexState.mk ∅ 0)
      (by intro k hk; simpa using h k hk)
    simpa using this
  · intro k hk hbelow hover
    have := buildIndex_err_of maxSize tokens k (IndexState.mk ∅ 0) hk
      (by intro j hj; simpa using hbelow j hj)
      (by simpa using hover)
    simpa using this

/-- C4 (witness): with ceiling 5 and tokens `ab, ab, cd`, the duplicate
`ab` still consumes budget, so the build fails at `cd` (running total
4 + 2 > 5) with only `ab` in the set and total 4. -/
theorem claim_C4_witness :
    buildIndex 5 (IndexState.mk ∅ 0) ["ab".data, "ab".data, "cd".data] =
      .error (IndexState.mk
        (insertAll (["ab".data, "ab".data, "cd".data].take 2) ∅)
        (sizesOf (["ab".data, "ab".data, "cd".data].take 2))) :=
  (claim_C4 ["ab".data, "ab".data, "cd".data] 5).2 2 (by decide)
    (by decide) (by decide)

/-! ### Slice and depth lemmas -/

theorem pySlice_self (s : List Char) (a : Nat) : pySlice s a a = [] := by
  apply List.drop_eq_nil_of_le
  rw [List.length_take]
  exact Nat.min_le_left _ _

theorem pySlice_zero (s : List Char) (b : Nat) : pySlice s 0 b = s.take b :=
  rfl

theorem pySlice_cons (s : List Char) (i j : Nat) (c : Char) (hij : i < j)
    (hc : s[i]? = some c) : pySlice s i j = c :: pySlice s (i + 1) j := by
  rcases List.getElem?_eq_some.mp hc with ⟨hlen, hval⟩
  have h1 : i < (s.take j).length := by
    rw [List.length_take]; omega
  rw [pySlice, List.drop_eq_getElem_cons h1]
  rw [List.getElem_take, hval]
  rfl

theorem foldl_depthStep_none : ∀ l : List Char, l.foldl depthStep none = none
  | [] => rfl
  | _ :: t => foldl_depthStep_none t

theorem openBrace_stack_length (s : List Char) (st : PState) (i : Nat) :
    (openBrace s st i).stack.length = st.stack.length + 1 := by
  rcases st with ⟨p, r, stk⟩
  cases stk <;> simp [openBrace]

/-- Within the scan, the stack depth follows `depthStep`; when the
remaining text folds to `some 0` from depth zero nothing fails, and when
it never fails the final depth is the folded depth. -/
theorem parseLoop_ok_of_depth (s : List Char) :
    ∀ (rest : List Char) (st : PState) (i : Nat) (d : Nat),
      rest.foldl depthStep (some st.stack.length) = some d →
      ∃ st', parseLoop s st i rest = .ok st' ∧ st'.stack.length = d := by
  intro rest
  induction rest with
  | nil =>
    intro st i d h
    refine ⟨st, rfl, ?_⟩
    simpa [depthStep] using h
  | cons c cs ih =>
    intro st i d h
    rw [List.foldl_cons] at h
    by_cases hop : c = '\x7b'
    · subst hop
      rw [parseLoop, if_pos rfl]
      apply ih
      rw [openBrace_stack_length]
      simpa [depthStep] using h
    · by_cases hcl : c = '\x7d'
      · subst hcl
        rw [parseLoop, if_neg (by decide), if_pos rfl]
        rcases st with ⟨p, r, stk⟩
        match stk with
        | [] =>
          rw [show depthStep (some (PState.stack ⟨p, r, []⟩).length) '\x7d'
              = none by rfl, foldl_depthStep_none] at h
          exact absurd h (by simp)
        | f :: fs =>
          have hd : depthStep (some (f :: fs).length) '\x7d' = some fs.length := by
            simp [depthStep]
          rw [show (PState.stack ⟨p, r, f :: fs⟩) = f :: fs from rfl, hd] at h
          match fs with
          | [] =>
            rw [closeBrace]
            exact ih _ _ _ h
          | g :: gs =>
            rw [closeBrace]
            have := ih (PState.mk (i + 1) r
              (Frame.mk g.rule g.content g.start g.stop
                (g.children ++ [CssBlock.mk f.rule
                  (f.content ++ pySlice s p i) f.start (i + 1) f.children])
                :: gs)) (i + 1) d (by simpa using h)
            simpa using this
      · rw [parseLoop, if_neg hop, if_neg hcl]
        apply ih
        have hd : depthStep (some st.stack.length) c = some st.stack.length := by
          simp [depthStep, hop, hcl]
        rwa [hd] at h

/-- If the text up to offset `i0` folds to depth zero without failure and
`s[i0] = '}'`, the scan reaches that brace with an empty stack and the
parse stops there with that offset as the error. -/
theorem parseLoop_err_at (s : List Char) (i0 : Nat)
    (h0 : s[i0]? = some '\x7d') :
    ∀ (rest : List Char) (st : PState) (i : Nat),
      s.drop i = rest → i ≤ i0 →
      (pySlice s i i0).foldl depthStep (some st.stack.length) = some 0 →
      parseLoop s st i rest = .error i0 := by
  intro rest
  induction rest with
  | nil =>
    intro st i hdrop hle hfold
    have hlen : s.length ≤ i := List.drop_eq_nil_iff.mp hdrop
    have : s[i0]? = none := List.getElem?_eq_none (by omega)
    rw [this] at h0
    exact absurd h0 (by simp)
  | cons c cs ih =>
    intro st i hdrop hle hfold
    have hi : i < s.length := by
      by_contra hge
      rw [List.drop_eq_nil_of_le (by omega)] at hdrop
      exact absurd hdrop (by simp)
    have hc : s[i]? = some c := by
      have h1 : (s.drop i)[0]? = s[i]? := by
        rw [List.getElem?_drop]
        rfl
      rw [hdrop] at h1
      simpa using h1.symm
    have hdrop' : s.drop (i + 1) = cs := by
      have : s.drop (i + 1) = (s.drop i).drop 1 := by
        rw [List.drop_drop]
      rw [this, hdrop]
      rfl
    rcases Nat.lt_or_ge i i0 with hlt | hge
    · have hslice : pySlice s i i0 = c :: pySlice s (i + 1) i0 :=
        pySlice_cons s i i0 c hlt hc
      rw [hslice, List.foldl_cons] at hfold
      by_cases hop : c = '\x7b'
      · subst hop
        rw [parseLoop, if_pos rfl]
        apply ih _ _ hdrop' (by omega)
        rw [openBrace_stack_length]
        simpa [depthStep] using hfold
      · by_cases hcl : c = '\x7d'
        · subst hcl
          rw [parseLoop, if_neg (by decide), if_pos rfl]
          rcases st with ⟨p, r, stk⟩
          match stk with
          | [] =>
            rw [show depthStep (some (PState.stack ⟨p, r, []⟩).length) '\x7d'
                = none by rfl, foldl_depthStep_none] at hfold
            exact absurd hfold (by simp)
          | f :: fs =>
            have hd : depthStep (some (f :: fs).length) '\x7d'
                = some fs.length := by simp [depthStep]
            rw [show (PState.stack ⟨p, r, f :: fs⟩) = f :: fs from rfl, hd]
              at hfold
            match fs with
            | [] =>
              rw [closeBrace]
              exact ih _ _ hdrop' (by omega) hfold
            | g :: gs =>
              rw [closeBrace]
              have := ih (PState.mk (i + 1) r
                (Frame.mk g.rule g.content g.start g.stop
                  (g.children ++ [CssBlock.mk f.rule
                    (f.content ++ pySlice s p i) f.start (i + 1) f.children])
                  :: gs)) (i + 1) hdrop' (by omega) (by simpa using hfold)
              simpa using this
        · rw [parseLoop, if_neg hop, if_neg hcl]
          apply ih _ _ hdrop' (by omega)
          have hd : depthStep (some st.stack.length) c
              = some st.stack.length := by
            simp [depthStep, hop, hcl]
          rwa [hd] at hfold
    · have hii : i = i0 := by omega
      subst hii
      have hcc : c = '\x7d' := by
        rw [hc] at h0
        exact Option.some_inj.mp h0
      subst hcc
      rw [pySlice_self] at hfold
      have hstk : st.stack = [] := by
        have : st.stack.length = 0 := by simpa [depthStep] using hfold
        exact List.length_eq_zero.mp this
      rw [parseLoop, if_neg (by decide), if_pos rfl]
      rcases st with ⟨p, r, stk⟩
      rw [show (PState.stack ⟨p, r, stk⟩) = stk from rfl] at hstk
      subst hstk
      rfl

/-! ### Characterizing the last-occurrence searches (for claim C2) -/

theorem findLast?_mem :
    ∀ (l : List Char) (c : Char) (k : Nat),
      findLast? l c = some k → l[k]? = some c := by
  intro l
  induction l with
  | nil => intro c k h; exact absurd h (by simp [findLast?])
  | cons d t ih =>
    intro c k h
    rw [findLast?] at h
    rcases ht : findLast? t c with _ | m <;> rw [ht] at h
    · by_cases hd : d = c
      · rw [if_pos hd] at h
        rcases Option.some_inj.mp h.symm with rfl
        simpa using hd
      · rw [if_neg hd] at h
        exact absurd h (by simp)
    · rcases Option.some_inj.mp h with rfl
      rw [List.getElem?_cons_succ]
      exact ih c m ht

theorem findLast?_eq_none_iff :
    ∀ (l : List Char) (c : Char),
      findLast? l c = none ↔ ∀ j : Nat, l[j]? ≠ some c := by
  intro l
  induction l with
  | nil =>
    intro c
    constructor
    · intro _ j
      simp
    · intro _
      rfl
  | cons d t ih =>
    intro c
    rw [findLast?]
    rcases ht : findLast? t c with _ | m
    · by_cases hd : d = c
      · simp only [if_pos hd]
        constructor
        · intro h; exact absurd h (by simp)
        · intro h
          have := h 0
          rw [List.getElem?_cons_zero] at this
          exact absurd (by rw [hd]) this
      · simp only [if_neg hd]
        constructor
        · intro _ j
          match j with
          | 0 =>
            rw [List.getElem?_cons_zero]
            simpa using hd
          | j + 1 =>
            rw [List.getElem?_cons_succ]
            exact (ih c).mp ht j
        · intro _; trivial
    · constructor
      · intro h; exact absurd h (by simp)
      · intro h
        have hm := findLast?_mem t c m ht
        have := h (m + 1)
        rw [List.getElem?_cons_succ] at this
        exact absurd hm this

theorem findLast?_eq_some_iff :
    ∀ (l : List Char) (c : Char) (k : Nat),
      findLast? l c = some k ↔
        (l[k]? = some c ∧ ∀ j : Nat, k < j → l[j]? ≠ some c) := by
  intro l
  induction l with
  | nil =>
    intro c k
    simp [findLast?]
  | cons d t ih =>
    intro c k
    rw [findLast?]
    rcases ht : findLast? t c with _ | m
    · by_cases hd : d = c
      · subst hd
        rw [if_pos rfl]
        constructor
        · rintro h
          rcases Option.some_inj.mp h.symm with rfl
          refine ⟨by simp, ?_⟩
          intro j hj
          match j, hj with
          | j + 1, _ =>
            rw [List.getElem?_cons_succ]
            exact (findLast?_eq_none_iff t d).mp ht j
        · rintro ⟨hk, hmax⟩
          match k with
          | 0 => rfl
          | k + 1 =>
            rw [List.getElem?_cons_succ] at hk
            exact absurd hk ((findLast?_eq_none_iff t d).mp ht k)
      · rw [if_neg hd]
        constructor
        · intro h; exact absurd h (by simp)
        · rintro ⟨hk, hmax⟩
          match k with
          | 0 =>
            rw [List.getElem?_cons_zero] at hk
            exact absurd (Option.some_inj.mp hk) hd
          | k + 1 =>
            rw [List.getElem?_cons_succ] at hk
            exact absurd hk ((findLast?_eq_none_iff t c).mp ht k)
    · constructor
      · intro h
        rcases Option.some_inj.mp h.symm with rfl
        rcases (ih c m).mp ht with ⟨hm, hmax⟩
        refine ⟨by simpa using hm, ?_⟩
        intro j hj
        match j, hj with
        | j + 1, hj =>
          rw [List.getElem?_cons_succ]
          exact hmax j (by omega)
      · rintro ⟨hk, hmax⟩
        rcases (ih c m).mp ht with ⟨hm, hmmax⟩
        match k with
        | 0 =>
          rw [List.getElem?_cons_zero] at hk
          have := hmax (m + 1) (Nat.succ_pos m)
          rw [List.getElem?_cons_succ] at this
          exact absurd hm this
        | k + 1 =>
          rw [List.getElem?_cons_succ] at hk
          have hkm : k = m := by
            rcases Nat.lt_trichotomy k m with h | h | h
            · exact absurd hm (by
                have := hmax (m + 1) (by omega)
                rwa [List.getElem?_cons_succ] at this)
            · exact h
            · exact absurd hk (hmmax k h)
          rw [hkm]

theorem lastPosBelow_eq_none_iff (p : Nat → Bool) :
    ∀ n, lastPosBelow p n = none ↔ ∀ j, j < n → p j = false := by
  intro n
  induction n with
  | zero => simp [lastPosBelow]
  | succ n ih =>
    rw [lastPosBelow]
    by_cases hp : p n
    · rw [if_pos hp]
      constructor
      · intro h; exact absurd h (by simp)
      · intro h; exact absurd hp (by simp [h n (Nat.lt_succ_self n)])
    · rw [if_neg hp]
      rw [ih]
      constructor
      · intro h j hj
        rcases Nat.lt_succ_iff_lt_or_eq.mp hj with hj | rfl
        · exact h j hj
        · simpa using hp
      · intro h j hj
        exact h j (by omega)

theorem lastPosBelow_eq_some_iff (p : Nat → Bool) :
    ∀ n k, lastPosBelow p n = some k ↔
      (k < n ∧ p k = true ∧ ∀ j, k < j → j < n → p j = false) := by
  intro n
  induction n with
  | zero => intro k; simp [lastPosBelow]
  | succ n ih =>
    intro k
    rw [lastPosBelow]
    by_cases hp : p n
    · rw [if_pos hp]
      constructor
      · intro h
        rcases Option.some_inj.mp h with rfl
        refine ⟨Nat.lt_succ_self n, hp, ?_⟩
        intro j h1 h2
        exact absurd h2 (by omega)
      · rintro ⟨hk, hpk, hmax⟩
        rcases Nat.lt_succ_iff_lt_or_eq.mp hk with hk | rfl
        · exact absurd hp (by simp [hmax n hk (Nat.lt_succ_self n)])
        · rfl
    · rw [if_neg hp]
      rw [ih]
      constructor
      · rintro ⟨hk, hpk, hmax⟩
        refine ⟨by omega, hpk, ?_⟩
        intro j hj1 hj2
        rcases Nat.lt_succ_iff_lt_or_eq.mp hj2 with hj | rfl
        · exact hmax j hj1 hj
        · simpa using hp
      · rintro ⟨hk, hpk, hmax⟩
        have hkn : k ≠ n := by
          rintro rfl
          exact hp (by simp [hpk])
        refine ⟨by omega, hpk, ?_⟩
        intro j hj1 hj2
        exact hmax j hj1 (by omega)

theorem pySlice_getElem? (s : List Char) (a b m : Nat) :
    (pySlice s a b)[m]? = if a + m < b then s[a + m]? else none := by
  rw [pySlice, List.getElem?_drop, List.getElem?_take]

/-- The absolute position of the last `c` in `text[prev:i]` — located by
the code's reversed `find` on the slice — is the spec's "position of the
last `c` in the span". -/
theorem specLastStop_eq (text : List Char) (prev i : Nat) (c : Char)
    (_h : prev ≤ i) :
    specLastStop text prev i c =
      (findLast? (pySlice text prev i) c).map (fun k => prev + k) := by
  rcases hfl : findLast? (pySlice text prev i) c with _ | k
  · rw [specLastStop, Option.map_none']
    apply (lastPosBelow_eq_none_iff _ i).mpr
    intro j hj
    by_cases hpj : prev ≤ j
    · have hslice := (findLast?_eq_none_iff _ c).mp hfl (j - prev)
      rw [pySlice_getElem?] at hslice
      rw [show prev + (j - prev) = j by omega, if_pos hj] at hslice
      simp [hslice]
    · simp [hpj]
  · rw [specLastStop, Option.map_some']
    apply (lastPosBelow_eq_some_iff _ i _).mpr
    rcases (findLast?_eq_some_iff _ c k).mp hfl with ⟨hk, hmax⟩
    rw [pySlice_getElem?] at hk
    have hki : prev + k < i := by
      by_contra hge
      rw [if_neg hge] at hk
      exact absurd hk (by simp)
    rw [if_pos hki] at hk
    refine ⟨hki, by simp [hk], ?_⟩
    intro j hj1 hj2
    have hmj := hmax (j - prev) (by omega)
    rw [pySlice_getElem?] at hmj
    rw [show prev + (j - prev) = j by omega, if_pos hj2] at hmj
    simp [hmj]

/-- The boundary the code computes from the reversed finds equals the
spec's "later of (last `;` + 1) and (last newline + 1), else the span's
start". -/
theorem boundary_eq_specBoundary (text : List Char) (prev i : Nat)
    (h : prev ≤ i) :
    boundary text prev i = specBoundary text prev i := by
  have hs := specLastStop_eq text prev i ';' h
  have hn := specLastStop_eq text prev i '\n' h
  rcases hsemi : findLast? (pySlice text prev i) ';' with _ | ks <;>
    rcases hnl : findLast? (pySlice text prev i) '\n' with _ | kn <;>
    rw [hsemi] at hs <;> rw [hnl] at hn <;>
      simp only [boundary, specBoundary, hsemi, hnl, hs, hn,
        Option.map_none', Option.map_some'] <;> omega

/-! ### Claim C2 -/

/-- C2: on each `{` at position `i`, the new block's prelude starts at
the spec's boundary — the later of (last `;` position + 1) and (last
newline position + 1) within the unclassified span, or the span's start
when neither occurs — and the text between the span start and that
boundary is appended to the open block's body, or appears nowhere in the
new state when no block is open. -/
theorem claim_C2 (text : List Char) (st : PState) (i : Nat)
    (h : st.prevIndex ≤ i) :
    boundary text st.prevIndex i = specBoundary text st.prevIndex i ∧
    (st.stack = [] →
      openBrace text st i = PState.mk (i + 1) st.roots
        [Frame.mk (pySlice text (specBoundary text st.prevIndex i) i) []
          (specBoundary text st.prevIndex i) i []]) ∧
    (∀ f fs, st.stack = f :: fs →
      openBrace text st i = PState.mk (i + 1) st.roots
        (Frame.mk (pySlice text (specBoundary text st.prevIndex i) i) []
          (specBoundary text st.prevIndex i) i [] ::
         Frame.mk f.rule
           (f.content ++ pySlice text st.prevIndex
             (specBoundary text st.prevIndex i)) f.start i f.children
          :: fs)) := by
  have hb := boundary_eq_specBoundary text st.prevIndex i h
  refine ⟨hb, ?_, ?_⟩
  · intro hstk
    rcases st with ⟨p, r, stk⟩
    simp only at hstk
    subst hstk
    simp only [openBrace]
    rw [show (PState.mk p r [] : PState).prevIndex = p from rfl] at hb
    rw [hb]
  · intro f fs hstk
    rcases st with ⟨p, r, stk⟩
    simp only at hstk
    subst hstk
    simp only [openBrace]
    rw [show (PState.mk p r (f :: fs) : PState).prevIndex = p from rfl] at hb
    rw [hb]

/-- C2 (witness): on `a;\nb;c {` with the brace at offset 7 and span
start 0, the boundary is 5 (one past the last `;` at 4, later than one
past the newline at 2), so the new root's prelude is `c `. -/
theorem claim_C2_witness :
    openBrace "a;\nb;c \x7b".data (PState.mk 0 [] []) 7 =
      PState.mk 8 []
        [Frame.mk (pySlice "a;\nb;c \x7b".data
            (specBoundary "a;\nb;c \x7b".data 0 7) 7) []
          (specBoundary "a;\nb;c \x7b".data 0 7) 7 []] :=
  (claim_C2 "a;\nb;c \x7b".data (PState.mk 0 [] []) 7 (by decide)).2.1 rfl

/-! ### Claim C6 -/

/-- C6: a closing brace at a position where no block is open — the text
before it folds to depth zero without any earlier failing close — makes
the parse fail with an error carrying exactly that offset (the Python
code dies there dereferencing an absent current block; the embedding
reports the offset), rather than proceeding with an invalid ascend. -/
theorem claim_C6 (s : List Char) (i0 : Nat) (h1 : s[i0]? = some '\x7d')
    (h2 : (s.take i0).foldl depthStep (some 0) = some 0) :
    parse s = .error i0 := by
  have h := parseLoop_err_at s i0 h1 s (PState.mk 0 [] []) 0 rfl
    (Nat.zero_le _) (by simpa [pySlice_zero] using h2)
  rw [parse, h]

/-- C6 (witness): parsing `x}` fails at offset 1. -/
theorem claim_C6_witness : parse "x\x7d".data = .error 1 :=
  claim_C6 "x\x7d".data 1 (by decide) (by decide)

/-! ### Parse-tree invariants (claim C9) -/

theorem boundary_bounds (text : List Char) (prev i : Nat) (h : prev ≤ i) :
    prev ≤ boundary text prev i ∧ boundary text prev i ≤ i := by
  have hlen : (pySlice text prev i).length ≤ i - prev := by
    rw [pySlice, List.length_drop, List.length_take]
    omega
  rcases hsemi : findLast? (pySlice text prev i) ';' with _ | ks <;>
    rcases hnl : findLast? (pySlice text prev i) '\n' with _ | kn <;>
      simp only [boundary, hsemi, hnl]
  · omega
  · obtain ⟨hkn, -⟩ := List.getElem?_eq_some.mp (findLast?_mem _ _ _ hnl)
    omega
  · obtain ⟨hks, -⟩ := List.getElem?_eq_some.mp (findLast?_mem _ _ _ hsemi)
    omega
  · obtain ⟨hks, -⟩ := List.getElem?_eq_some.mp (findLast?_mem _ _ _ hsemi)
    obtain ⟨hkn, -⟩ := List.getElem?_eq_some.mp (findLast?_mem _ _ _ hnl)
    omega

theorem WF_fields {b : CssBlock} (h : WF b) :
    b.start ≤ b.stop ∧
    b.children.Pairwise (fun x y => x.start < y.start) ∧
    ∀ c ∈ b.children, WF c := by
  cases h with
  | mk r ct a bb ch h1 h2 h3 => exact ⟨h1, h2, h3⟩

theorem WF_descend {r b : CssBlock} (hr : WF r) (hd : Descend b r) :
    WF b := by
  induction hd with
  | refl b => exact hr
  | child b c d hc _ ih => exact ih ((WF_fields hr).2.2 c hc)

/-- Through a successful scan, every finished root is well-formed and the
stack of open frames keeps the `FrOk` chain. -/
theorem parseLoop_wf (s : List Char) :
    ∀ (rest : List Char) (st : PState) (i : Nat) (st' : PState),
      st.prevIndex ≤ i →
      StackInvC st.prevIndex st.stack →
      (∀ r ∈ st.roots, WF r) →
      parseLoop s st i rest = .ok st' →
      StackInvC st'.prevIndex st'.stack ∧ ∀ r ∈ st'.roots, WF r := by
  intro rest
  induction rest with
  | nil =>
    intro st i st' hprev hstk hroots hok
    rcases Except.ok.inj hok with rfl
    exact ⟨hstk, hroots⟩
  | cons c cs ih =>
    intro st i st' hprev hstk hroots hok
    rcases st with ⟨p, r, stk⟩
    simp only at hprev hstk hroots
    by_cases hop : c = '\x7b'
    · subst hop
      rw [parseLoop, if_pos rfl] at hok
      obtain ⟨hb1, hb2⟩ := boundary_bounds s p i hprev
      match stk, hstk with
      | [], _ =>
        have hob : openBrace s (PState.mk p r []) i = PState.mk (i + 1) r
            [Frame.mk (pySlice s (boundary s p i) i) []
              (boundary s p i) i []] := rfl
        rw [hob] at hok
        refine ih _ (i + 1) st' (Nat.le_refl _) ?_ hroots hok
        simp only [StackInvC, FrOk]
        exact ⟨⟨hb2, by omega, List.Pairwise.nil, by simp⟩, trivial⟩
      | f :: fs, ⟨hf, hrest⟩ =>
        obtain ⟨hf1, hf2, hf3, hf4⟩ := hf
        have hob : openBrace s (PState.mk p r (f :: fs)) i = PState.mk (i + 1) r
            (Frame.mk (pySlice s (boundary s p i) i) []
              (boundary s p i) i [] ::
             Frame.mk f.rule (f.content ++ pySlice s p (boundary s p i))
               f.start i f.children :: fs) := rfl
        rw [hob] at hok
        refine ih _ (i + 1) st' (Nat.le_refl _) ?_ hroots hok
        simp only [StackInvC, FrOk]
        refine ⟨⟨hb2, by omega, List.Pairwise.nil, by simp⟩, ⟨?_, ?_, hf3, ?_⟩, hrest⟩
        · exact by omega
        · exact by omega
        · intro cc hc
          obtain ⟨hw, hlt, hstop⟩ := hf4 cc hc
          exact ⟨hw, hlt, by omega⟩
    · by_cases hcl : c = '\x7d'
      · subst hcl
        rw [parseLoop, if_neg (by decide), if_pos rfl] at hok
        match stk, hstk with
        | [], _ =>
          rw [closeBrace] at hok
          exact absurd hok (by simp)
        | f :: fs, ⟨hf, hrest⟩ =>
          obtain ⟨hf1, hf2, hf3, hf4⟩ := hf
          have hwfb : WF (CssBlock.mk f.rule (f.content ++ pySlice s p i)
              f.start (i + 1) f.children) := by
            refine WF.mk _ _ _ _ _ (by omega) hf3 ?_
            intro cc hc
            exact (hf4 cc hc).1
          match fs, hrest with
          | [], _ =>
            have hcb : closeBrace s (PState.mk p r [f]) i =
                .ok (PState.mk (i + 1)
                  (r ++ [CssBlock.mk f.rule (f.content ++ pySlice s p i)
                    f.start (i + 1) f.children]) []) := rfl
            rw [hcb] at hok
            refine ih _ (i + 1) st' (Nat.le_refl _) ?_ ?_ hok
            · exact trivial
            intro rr hr
            rcases List.mem_append.mp hr with hr | hr
            · exact hroots rr hr
            · rcases List.mem_singleton.mp hr with rfl
              exact hwfb
          | g :: gs, ⟨hg, hrest2⟩ =>
            obtain ⟨hg1, hg2, hg3, hg4⟩ := hg
            have hcb : closeBrace s (PState.mk p r (f :: g :: gs)) i =
                .ok (PState.mk (i + 1) r
                  (Frame.mk g.rule g.content g.start g.stop
                    (g.children ++ [CssBlock.mk f.rule
                      (f.content ++ pySlice s p i)
                      f.start (i + 1) f.children]) :: gs)) := rfl
            rw [hcb] at hok
            refine ih _ (i + 1) st' (Nat.le_refl _) ?_ hroots hok
            simp only [StackInvC, FrOk]
            refine ⟨⟨hg1, by omega, ?_, ?_⟩, hrest2⟩
            · rw [List.pairwise_append]
              refine ⟨hg3, List.pairwise_singleton _ _, ?_⟩
              intro x hx y hy
              rcases List.mem_singleton.mp hy with rfl
              obtain ⟨-, hlt, hstop⟩ := hg4 x hx
              exact (show x.start < f.start by omega)
            · intro cc hc
              rcases List.mem_append.mp hc with hc | hc
              · obtain ⟨hw, hlt, hstop⟩ := hg4 cc hc
                exact ⟨hw, hlt, by omega⟩
              · rcases List.mem_singleton.mp hc with rfl
                exact ⟨hwfb, (show f.start < i + 1 by omega),
                  (show i + 1 ≤ i + 1 from Nat.le_refl _)⟩
      · rw [parseLoop, if_neg hop, if_neg hcl] at hok
        exact ih _ (i + 1) st' (Nat.le_succ_of_le hprev) hstk hroots hok

theorem stackInvC_cInvC :
    ∀ (stk : List Frame) (bound : Nat), StackInvC bound stk → CInvC stk := by
  intro stk
  induction stk with
  | nil => intro bound _; trivial
  | cons f rest ih =>
    intro bound hs
    obtain ⟨hf, hrest⟩ := hs
    obtain ⟨hf1, hf2, hf3, hf4⟩ := hf
    cases rest with
    | nil => exact ⟨hf1, hf3, fun c hc => (hf4 c hc).1⟩
    | cons g gs =>
      have hrest2 := hrest
      obtain ⟨hg, -⟩ := hrest
      obtain ⟨hg1, hg2, hg3, hg4⟩ := hg
      refine ⟨⟨hf1, hf3, fun c hc => (hf4 c hc).1⟩, ?_, ih f.start hrest2⟩
      intro c hc
      obtain ⟨-, hlt, hstop⟩ := hg4 c hc
      omega

theorem collapseGo_wf :
    ∀ (fs : List Frame) (b : CssBlock) (roots : List CssBlock),
      WF b → CInvC fs →
      (∀ g gs, fs = g :: gs → ∀ c ∈ g.children, c.start < b.start) →
      (∀ r ∈ roots, WF r) →
      ∀ r ∈ collapseGo b fs roots, WF r := by
  intro fs
  induction fs with
  | nil =>
    intro b roots hwb _ _ hroots rr hr
    rw [collapseGo] at hr
    rcases List.mem_append.mp hr with hr | hr
    · exact hroots rr hr
    · rcases List.mem_singleton.mp hr with rfl
      exact hwb
  | cons g gs ih =>
    intro b roots hwb hcinv hrel hroots rr hr
    rw [collapseGo] at hr
    have hg3 : g.start ≤ g.stop ∧
        g.children.Pairwise (fun x y => x.start < y.start) ∧
        ∀ c ∈ g.children, WF c := by
      match gs, hcinv with
      | [], h => exact h
      | h :: hs, hc => exact hc.1
    obtain ⟨hgs, hgp, hgw⟩ := hg3
    have hwb' : WF (CssBlock.mk g.rule g.content g.start g.stop
        (g.children ++ [b])) := by
      refine WF.mk _ _ _ _ _ hgs ?_ ?_
      · rw [List.pairwise_append]
        refine ⟨hgp, List.pairwise_singleton _ _, ?_⟩
        intro x hx y hy
        rcases List.mem_singleton.mp hy with rfl
        exact hrel g gs rfl x hx
      · intro c hc
        rcases List.mem_append.mp hc with hc | hc
        · exact hgw c hc
        · rcases List.mem_singleton.mp hc with rfl
          exact hwb
    refine ih _ roots hwb' ?_ ?_ hroots rr hr
    · match gs, hcinv with
      | [], _ => trivial
      | h :: hs, hc => exact hc.2.2
    · intro h hs hgs2 c hc
      match gs, hcinv, hgs2 with
      | h :: hs, hc2, rfl =>
        simp only [CssBlock.start]
        exact hc2.2.1 c hc

/-- Every block of a successful parse is well-formed. -/
theorem parse_wf (s : List Char) (bs : List CssBlock)
    (h : parse s = .ok bs) : ∀ r ∈ bs, WF r := by
  rw [parse] at h
  rcases hloop : parseLoop s (PState.mk 0 [] []) 0 s with e | st <;>
    rw [hloop] at h
  · exact absurd h (by simp)
  · rcases Except.ok.inj h with rfl
    obtain ⟨hstk, hroots⟩ := parseLoop_wf s s (PState.mk 0 [] []) 0 st
      (Nat.le_refl 0) trivial (by simp) hloop
    rcases st with ⟨p, r, stk⟩
    simp only at hstk hroots ⊢
    match stk, hstk with
    | [], _ =>
      rw [collapse]
      exact hroots
    | f :: fs, ⟨hf, hrest⟩ =>
      rw [collapse]
      obtain ⟨hf1, hf2, hf3, hf4⟩ := hf
      refine collapseGo_wf fs f.toBlock r ?_ ?_ ?_ hroots
      · exact WF.mk _ _ _ _ _ hf1 hf3 (fun c hc => (hf4 c hc).1)
      · exact stackInvC_cInvC fs f.start hrest
      · intro g gs hgs c hc
        match fs, hrest, hgs with
        | g :: gs, ⟨hg, _⟩, rfl =>
          obtain ⟨-, -, -, hg4⟩ := hg
          obtain ⟨-, hlt, hstop⟩ := hg4 c hc
          have : f.toBlock.start = f.start := rfl
          omega

/-! ### Claim C9 -/

/-- C9: every block produced by parsing any input — at any nesting
depth, including blocks left open at end of input — has `start ≤ stop`,
and its children list has no duplicates, so each child occurs exactly
once in its (unique, structural) parent's children. -/
theorem claim_C9 (s : List Char) (bs : List CssBlock)
    (hp : parse s = .ok bs) (b : CssBlock)
    (hb : ∃ r ∈ bs, Descend b r) :
    b.start ≤ b.stop ∧ b.children.Nodup := by
  rcases hb with ⟨r, hr, hd⟩
  have hwf := WF_descend (parse_wf s bs hp r hr) hd
  obtain ⟨h1, h2, -⟩ := WF_fields hwf
  refine ⟨h1, ?_⟩
  exact h2.imp fun hlt heq => absurd (heq ▸ hlt) (lt_irrefl _)

/-- C9 (witness): the root block of `a{b}` satisfies the invariant. -/
theorem claim_C9_witness :
    (CssBlock.mk "a".data "b".data 0 4 []).start ≤
        (CssBlock.mk "a".data "b".data 0 4 []).stop ∧
      (CssBlock.mk "a".data "b".data 0 4 []).children.Nodup :=
  claim_C9 "a\x7bb\x7d".data [CssBlock.mk "a".data "b".data 0 4 []] rfl
    (CssBlock.mk "a".data "b".data 0 4 [])
    ⟨CssBlock.mk "a".data "b".data 0 4 [],
      List.mem_singleton.mpr rfl, Descend.refl _⟩

/-! ### Round-trip decomposition (claim C1) -/

theorem drop_cons_facts (s : List Char) (i : Nat) (c : Char) (cs : List Char)
    (h : s.drop i = c :: cs) :
    i < s.length ∧ s[i]? = some c ∧ s.drop (i + 1) = cs := by
  have hi : i < s.length := by
    by_contra hge
    rw [List.drop_eq_nil_of_le (by omega)] at h
    exact absurd h (by simp)
  refine ⟨hi, ?_, ?_⟩
  · have h1 : (s.drop i)[0]? = s[i]? := by
      rw [List.getElem?_drop]
      rfl
    rw [h] at h1
    simpa using h1.symm
  · have h2 : s.drop (i + 1) = (s.drop i).drop 1 := by
      rw [List.drop_drop]
    rw [h2, h]
    rfl

theorem take_split (s : List Char) (prev n : Nat) (h : prev ≤ n) :
    s.take n = s.take prev ++ pySlice s prev n := by
  have h1 := List.take_append_drop prev (s.take n)
  rw [List.take_take, Nat.min_eq_left h] at h1
  exact h1.symm

theorem pySlice_split (s : List Char) (a m b : Nat) (h1 : a ≤ m) (h2 : m ≤ b)
    (h3 : a ≤ s.length) :
    pySlice s a b = pySlice s a m ++ pySlice s m b := by
  have htb : s.take b = s.take m ++ pySlice s m b := take_split s m b h2
  rw [pySlice, htb,
    List.drop_append_of_le_length (by rw [List.length_take]; omega)]
  rfl

theorem pySlice_snoc (s : List Char) (prev i : Nat) (c : Char)
    (h1 : prev ≤ i) (h2 : s[i]? = some c) :
    pySlice s prev (i + 1) = pySlice s prev i ++ [c] := by
  obtain ⟨hi, -⟩ := List.getElem?_eq_some.mp h2
  rw [pySlice_split s prev i (i + 1) h1 (Nat.le_succ i) (by omega)]
  have hc := pySlice_cons s i (i + 1) c (Nat.lt_succ_self i) h2
  rw [pySlice_self] at hc
  rw [hc]

theorem noBrace_nil : NoBrace [] := by
  intro c hc
  exact absurd hc (List.not_mem_nil c)

theorem noBrace_append (a b : List Char) :
    NoBrace (a ++ b) ↔ NoBrace a ∧ NoBrace b :=
  List.forall_mem_append

theorem stackP_nil_inv (t : List Char) (h : StackP [] t) : t = [] := by
  cases h
  rfl

theorem inner_append_piece :
    ∀ (ch : List CssBlock) (ct t p : List Char),
      Inner ct ch t → Inner (ct ++ p) ch (t ++ p) := by
  intro ch
  induction ch with
  | nil =>
    intro ct t p h
    cases h with
    | last q => exact Inner.last (ct ++ p)
  | cons c cs ih =>
    intro ct t p h
    cases h with
    | cons q rest c0 cs0 tc tin hreb hin =>
      have := Inner.cons q (rest ++ p) c cs tc (tin ++ p) hreb
        (ih rest tin p hin)
      simpa [List.append_assoc] using this

theorem inner_append_child :
    ∀ (ch : List CssBlock) (ct t tb : List Char) (b : CssBlock),
      Inner ct ch t → Rebuilds b tb → Inner ct (ch ++ [b]) (t ++ tb) := by
  intro ch
  induction ch with
  | nil =>
    intro ct t tb b h hr
    cases h with
    | last q =>
      have := Inner.cons ct [] b [] tb [] hr (Inner.last [])
      simpa using this
  | cons c cs ih =>
    intro ct t tb b h hr
    cases h with
    | cons q rest c0 cs0 tc tin hreb hin =>
      have := Inner.cons q rest c (cs ++ [b]) tc (tin ++ tb) hreb
        (ih rest tin tb b hin hr)
      simpa [List.append_assoc] using this

theorem stackP_update_head (fs : List Frame) (f : Frame) (t piece : List Char)
    (e : Nat) (h : StackP (f :: fs) t) :
    StackP (Frame.mk f.rule (f.content ++ piece) f.start e f.children :: fs)
      (t ++ piece) := by
  cases h with
  | one g tin f0 hnb hin =>
    have := StackP.one g (tin ++ piece)
      (Frame.mk f.rule (f.content ++ piece) f.start e f.children) hnb
      (inner_append_piece _ _ _ piece hin)
    simpa [List.append_assoc] using this
  | cons t2 tin f0 f2 fs2 hsp hin =>
    have := StackP.cons t2 (tin ++ piece)
      (Frame.mk f.rule (f.content ++ piece) f.start e f.children) f2 fs2 hsp
      (inner_append_piece _ _ _ piece hin)
    simpa [List.append_assoc] using this

theorem stackP_add_child (fs : List Frame) (f2 : Frame) (t tb : List Char)
    (b : CssBlock) (h : StackP (f2 :: fs) t) (hr : Rebuilds b tb) :
    StackP (Frame.mk f2.rule f2.content f2.start f2.stop
      (f2.children ++ [b]) :: fs) (t ++ tb) := by
  cases h with
  | one g tin f0 hnb hin =>
    have := StackP.one g (tin ++ tb)
      (Frame.mk f2.rule f2.content f2.start f2.stop (f2.children ++ [b])) hnb
      (inner_append_child _ _ _ _ _ hin hr)
    simpa [List.append_assoc] using this
  | cons t2 tin f0 f2b fs2 hsp hin =>
    have := StackP.cons t2 (tin ++ tb)
      (Frame.mk f2.rule f2.content f2.start f2.stop (f2.children ++ [b])) f2b
      fs2 hsp (inner_append_child _ _ _ _ _ hin hr)
    simpa [List.append_assoc] using this

theorem forestP_append (bs : List CssBlock) (tR g tb : List Char)
    (b : CssBlock) (hf : ForestP bs tR) (hg : NoBrace g)
    (hb : Rebuilds b tb) :
    ForestP (bs ++ [b]) (tR ++ (g ++ tb)) := by
  induction hf with
  | nil =>
    have := ForestP.cons g tb [] b [] hg hb ForestP.nil
    simpa using this
  | cons g0 tb0 t0 b0 bs0 hg0 hb0 hf0 ih =>
    have := ForestP.cons g0 tb0 (t0 ++ (g ++ tb)) b0 (bs0 ++ [b]) hg0 hb0 ih
    simpa [List.append_assoc] using this

/-- The scan invariant behind the round trip: the classified prefix of
the input decomposes into the finished roots' alternating gaps and spans
followed by the open frames' partial text, and the not-yet-classified
span contains no braces.  A successful scan carries this to the end of
the input. -/
theorem parseLoop_rebuild (s : List Char) :
    ∀ (rest : List Char) (st : PState) (i : Nat) (st' : PState),
      s.drop i = rest →
      st.prevIndex ≤ i → st.prevIndex ≤ s.length →
      NoBrace (pySlice s st.prevIndex i) →
      (∃ tR tS, s.take st.prevIndex = tR ++ tS ∧
        ForestP st.roots tR ∧ StackP st.stack tS) →
      parseLoop s st i rest = .ok st' →
      st'.prevIndex ≤ s.length ∧
      NoBrace (s.drop st'.prevIndex) ∧
      ∃ tR tS, s.take st'.prevIndex = tR ++ tS ∧
        ForestP st'.roots tR ∧ StackP st'.stack tS := by
  intro rest
  induction rest with
  | nil =>
    intro st i st' hdrop hprev hplen hnb hdec hok
    rcases Except.ok.inj hok with rfl
    have hlen : s.length ≤ i := List.drop_eq_nil_iff.mp hdrop
    refine ⟨hplen, ?_, hdec⟩
    have heq : pySlice s st.prevIndex i = s.drop st.prevIndex := by
      rw [pySlice, List.take_of_length_le hlen]
    rwa [heq] at hnb
  | cons c cs ih =>
    intro st i st' hdrop hprev hplen hnb hdec hok
    obtain ⟨hi, hci, hdrop'⟩ := drop_cons_facts s i c cs hdrop
    rcases st with ⟨p, r, stk⟩
    simp only at hprev hplen hnb hdec hok
    obtain ⟨tR, tS, hdeq, hforest, hstackp⟩ := hdec
    have htake : s.take (i + 1) = s.take p ++ (pySlice s p i ++ [c]) := by
      rw [take_split s p (i + 1) (by omega), pySlice_snoc s p i c hprev hci]
    by_cases hop : c = '\x7b'
    · subst hop
      rw [parseLoop, if_pos rfl] at hok
      obtain ⟨hb1, hb2⟩ := boundary_bounds s p i hprev
      have hsplit := pySlice_split s p (boundary s p i) i hb1 hb2 hplen
      have hnb2 := hnb
      rw [hsplit] at hnb2
      obtain ⟨hnbg, hnbr⟩ := (noBrace_append _ _).mp hnb2
      cases stk with
      | nil =>
        have htS : tS = [] := stackP_nil_inv _ hstackp
        subst htS
        have hob : openBrace s (PState.mk p r []) i = PState.mk (i + 1) r
            [Frame.mk (pySlice s (boundary s p i) i) []
              (boundary s p i) i []] := rfl
        rw [hob] at hok
        refine ih _ (i + 1) st' hdrop' ?_ ?_ ?_ ?_ hok
        · exact Nat.le_refl _
        · show i + 1 ≤ s.length
          omega
        · show NoBrace (pySlice s (i + 1) (i + 1))
          rw [pySlice_self]
          exact noBrace_nil
        · refine ⟨tR, pySlice s p (boundary s p i) ++
            (pySlice s (boundary s p i) i ++ '\x7b' :: []), ?_, hforest, ?_⟩
          · show s.take (i + 1) = _
            rw [htake, hsplit, hdeq]
            simp [List.append_assoc]
          · exact StackP.one _ _ _ hnbg (Inner.last [])
      | cons f fs =>
        have hob : openBrace s (PState.mk p r (f :: fs)) i = PState.mk (i + 1) r
            (Frame.mk (pySlice s (boundary s p i) i) []
              (boundary s p i) i [] ::
             Frame.mk f.rule (f.content ++ pySlice s p (boundary s p i))
               f.start i f.children :: fs) := rfl
        rw [hob] at hok
        refine ih _ (i + 1) st' hdrop' ?_ ?_ ?_ ?_ hok
        · exact Nat.le_refl _
        · show i + 1 ≤ s.length
          omega
        · show NoBrace (pySlice s (i + 1) (i + 1))
          rw [pySlice_self]
          exact noBrace_nil
        · have hupd := stackP_update_head fs f tS
            (pySlice s p (boundary s p i)) i hstackp
          refine ⟨tR, (tS ++ pySlice s p (boundary s p i)) ++
            (pySlice s (boundary s p i) i ++ '\x7b' :: []), ?_, hforest, ?_⟩
          · show s.take (i + 1) = _
            rw [htake, hsplit, hdeq]
            simp [List.append_assoc]
          · exact StackP.cons _ [] _ _ _ hupd (Inner.last [])
    · by_cases hcl : c = '\x7d'
      · subst hcl
        rw [parseLoop, if_neg (by decide), if_pos rfl] at hok
        cases stk with
        | nil =>
          rw [closeBrace] at hok
          exact absurd hok (by simp)
        | cons f fs =>
          cases hstackp with
          | one g tin f0 hnbg hin =>
            have hcb : closeBrace s (PState.mk p r [f]) i =
                .ok (PState.mk (i + 1)
                  (r ++ [CssBlock.mk f.rule (f.content ++ pySlice s p i)
                    f.start (i + 1) f.children]) []) := rfl
            rw [hcb] at hok
            refine ih _ (i + 1) st' hdrop' ?_ ?_ ?_ ?_ hok
            · exact Nat.le_refl _
            · show i + 1 ≤ s.length
              omega
            · show NoBrace (pySlice s (i + 1) (i + 1))
              rw [pySlice_self]
              exact noBrace_nil
            · have hreb : Rebuilds (CssBlock.mk f.rule
                  (f.content ++ pySlice s p i) f.start (i + 1) f.children)
                  (f.rule ++ '\x7b' ::
                    ((tin ++ pySlice s p i) ++ ['\x7d'])) :=
                Rebuilds.mk _ _ _ _ _ _ (inner_append_piece _ _ _ _ hin)
              refine ⟨tR ++ (g ++ (f.rule ++ '\x7b' ::
                ((tin ++ pySlice s p i) ++ ['\x7d']))), [], ?_, ?_, StackP.nil⟩
              · show s.take (i + 1) = _
                rw [htake, hdeq]
                simp [List.append_assoc]
              · exact forestP_append r tR g _ _ hforest hnbg hreb
          | cons t2 tin f0 f2 fs2 hsp2 hin =>
            have hcb : closeBrace s (PState.mk p r (f :: f2 :: fs2)) i =
                .ok (PState.mk (i + 1) r
                  (Frame.mk f2.rule f2.content f2.start f2.stop
                    (f2.children ++ [CssBlock.mk f.rule
                      (f.content ++ pySlice s p i) f.start (i + 1)
                      f.children]) :: fs2)) := rfl
            rw [hcb] at hok
            refine ih _ (i + 1) st' hdrop' ?_ ?_ ?_ ?_ hok
            · exact Nat.le_refl _
            · show i + 1 ≤ s.length
              omega
            · show NoBrace (pySlice s (i + 1) (i + 1))
              rw [pySlice_self]
              exact noBrace_nil
            · have hreb : Rebuilds (CssBlock.mk f.rule
                  (f.content ++ pySlice s p i) f.start (i + 1) f.children)
                  (f.rule ++ '\x7b' ::
                    ((tin ++ pySlice s p i) ++ ['\x7d'])) :=
                Rebuilds.mk _ _ _ _ _ _ (inner_append_piece _ _ _ _ hin)
              have hchild := stackP_add_child fs2 f2 t2 _ _ hsp2 hreb
              refine ⟨tR, t2 ++ (f.rule ++ '\x7b' ::
                ((tin ++ pySlice s p i) ++ ['\x7d'])), ?_, hforest, hchild⟩
              · show s.take (i + 1) = _
                rw [htake, hdeq]
                simp [List.append_assoc]
      · rw [parseLoop, if_neg hop, if_neg hcl] at hok
        refine ih _ (i + 1) st' hdrop' ?_ ?_ ?_ ?_ hok
        · exact Nat.le_succ_of_le hprev
        · show p ≤ s.length
          exact hplen
        · show NoBrace (pySlice s p (i + 1))
          rw [pySlice_snoc s p i c hprev hci]
          refine (noBrace_append _ _).mpr ⟨hnb, ?_⟩
          intro d hd
          rcases List.mem_singleton.mp hd with rfl
          exact ⟨hop, hcl⟩
        · exact ⟨tR, tS, hdeq, hforest, hstackp⟩

/-! ### Claim C1 -/

/-- C1 (counterexample): for the balanced input `a{b}` the parse yields
one leaf root with prelude `a` and body `b`; the claim's reconstruction
— preludes and bodies concatenated in document order — is `ab`, which is
not the original text with a leading and a trailing piece removed, since
`ab` is not a contiguous substring of `a{b}` (the braces are missing). -/
theorem claim_C1_counterexample :
    balanced "a\x7bb\x7d".data = true ∧
    parse "a\x7bb\x7d".data =
      .ok [CssBlock.mk "a".data "b".data 0 4 []] ∧
    ¬ ∃ pre suf : List Char,
      pre ++ ("a".data ++ "b".data) ++ suf = "a\x7bb\x7d".data := by
  refine ⟨by decide, rfl, ?_⟩
  rintro ⟨pre, suf, h⟩
  have hinf : ("a".data ++ "b".data) <:+: "a\x7bb\x7d".data :=
    ⟨pre, suf, h⟩
  revert hinf
  decide

/-- C1 (amended): for every input with balanced braces, the text splits
into alternating top-level stray gaps and root-block spans (so stray
text sits not only at the ends but also between roots, and the trailing
remainder is brace-free), where each block's span is exactly its prelude,
its opening brace, its body pieces interleaved in document order with
its children's spans, and its closing brace. -/
theorem claim_C1_amended (s : List Char) (hb : balanced s = true) :
    ∃ bs t g, parse s = .ok bs ∧ s = t ++ g ∧ NoBrace g ∧ ForestP bs t := by
  have hfold : s.foldl depthStep (some 0) = some 0 := by
    rw [balanced] at hb
    exact eq_of_beq hb
  obtain ⟨st', hok, hlen0⟩ := parseLoop_ok_of_depth s s (PState.mk 0 [] []) 0 0
    (by simpa using hfold)
  have hstk : st'.stack = [] := List.length_eq_zero.mp hlen0
  obtain ⟨hple, hnb, tR, tS, hdeq, hforest, hstackp⟩ :=
    parseLoop_rebuild s s (PState.mk 0 [] []) 0 st' rfl (Nat.le_refl 0)
      (Nat.zero_le _)
      (by rw [pySlice_self]; exact noBrace_nil)
      ⟨[], [], by simp, ForestP.nil, StackP.nil⟩ hok
  rw [hstk] at hstackp
  have htS : tS = [] := stackP_nil_inv _ hstackp
  subst htS
  refine ⟨st'.roots, s.take st'.prevIndex, s.drop st'.prevIndex, ?_, ?_, hnb, ?_⟩
  · rw [parse, hok]
    show Except.ok (collapse st'.stack st'.roots) = Except.ok st'.roots
    rw [hstk, collapse]
  · exact (List.take_append_drop _ s).symm
  · rw [hdeq]
    simpa using hforest

/-- C1 (witness): the decomposition applied to the balanced input
`a{b}`. -/
theorem claim_C1_witness :
    ∃ bs t g, parse "a\x7bb\x7d".data = .ok bs ∧
      "a\x7bb\x7d".data = t ++ g ∧ NoBrace g ∧ ForestP bs t :=
  claim_C1_amended "a\x7bb\x7d".data (by decide)

end Remover
